import Mathlib

/-!
A shallow embedding of the core logic of the `verified-digital-twin-brain`
backend (hybrid retrieval, graph-snapshot construction, the agent tool loop,
and the chat streaming layer), together with theorems that check the
natural-language specification's claims against this embedding.

Conventions used throughout:
* Python strings are modelled as Lean `String` / `List Char`; Python slicing,
  splitting and substring search are reimplemented structurally so that all
  definitions evaluate by kernel reduction.
* Python floats are modelled as `ℚ`.
* Python `None` for optional text fields is modelled as the empty string when
  the code only ever uses the field through `or`/truthiness, and as `Option`
  when the distinction matters.
* Database reads are modelled by passing the store contents explicitly.
-/

namespace TwinBrain

/-! ## Text utilities (Python `str` operations, character-list level) -/

/-- Whitespace test used by Python `str.split()` (ASCII subset). -/
def isWsChar (c : Char) : Bool :=
  c = ' ' ∨ c = '\t' ∨ c = '\n' ∨ c = '\r'

/-- Accumulator-based splitter: `splitWsAux cur l` splits `l` on whitespace
runs, `cur` holding the (reversed) current word. -/
def splitWsAux : List Char → List Char → List (List Char)
  | cur, [] => if cur = [] then [] else [cur.reverse]
  | cur, c :: cs =>
    if isWsChar c then
      if cur = [] then splitWsAux [] cs else cur.reverse :: splitWsAux [] cs
    else
      splitWsAux (c :: cur) cs

/-- Python `s.split()`: split on whitespace runs, dropping empty pieces. -/
def splitWs (l : List Char) : List (List Char) :=
  splitWsAux [] l

/-- ASCII lower-casing of one character (Python `str.lower` restricted to the
ASCII range used by the data in question). -/
def lowerChar (c : Char) : Char :=
  if 65 ≤ c.toNat ∧ c.toNat ≤ 90 then Char.ofNat (c.toNat + 32) else c

/-- Lower-case a character list. -/
def lowerChars (l : List Char) : List Char :=
  l.map lowerChar

/-- Does `t` occur at the very start of `s`? -/
def leadsList : List Char → List Char → Bool
  | [], _ => true
  | _ :: _, [] => false
  | a :: as, b :: bs => a = b && leadsList as bs

/-- Python `t in s` on character lists: does `t` occur contiguously in `s`? -/
def subOccurs (t : List Char) : List Char → Bool
  | [] => leadsList t []
  | s@(_ :: rest) => leadsList t s || subOccurs t rest

/-- Python `t in s` on strings. -/
def hasSub (s t : String) : Bool :=
  subOccurs t.data s.data

/-- Lexicographic (code-point) strict comparison of character lists, matching
Python string `<`. -/
def charsLt : List Char → List Char → Bool
  | _, [] => false
  | [], _ :: _ => true
  | a :: as, b :: bs => decide (a.toNat < b.toNat) || (a = b && charsLt as bs)

/-- Python `s < t` for strings. -/
def strLtB (s t : String) : Bool :=
  charsLt s.data t.data

/-- Python slice `s[n:]` (by code points). -/
def strDropPy (s : String) (n : Nat) : String :=
  ⟨s.data.drop n⟩

/-- Python `len(s)` (code points). -/
def strLenPy (s : String) : Nat :=
  s.data.length

/-! ## Stable descending sort

Python `list.sort(key=k, reverse=True)` is a stable descending sort: elements
are ordered by strictly decreasing key, and elements with equal keys keep
their original relative order.  `insDesc`/`sortDesc` implement exactly that
by structural recursion (the canonical stable sort is unique, so the choice
of algorithm is immaterial). -/

/-- Insert `x` into the already-sorted (descending) list, after every element
with a key not smaller than `x`'s (stability: `x` comes from later in the
original list than everything already in the accumulator... here the recursion
`sortDesc (x :: xs) = insDesc x (sortDesc xs)` makes `x` the earliest element,
so `x` is placed before the first element with a key not greater than its own). -/
def insDesc (key : α → β) (ltB : β → β → Bool) (x : α) : List α → List α
  | [] => [x]
  | y :: ys => if ltB (key x) (key y) then y :: insDesc key ltB x ys else x :: y :: ys

/-- Stable descending sort by `key` under the strict comparison `ltB`. -/
def sortDesc (key : α → β) (ltB : β → β → Bool) : List α → List α
  | [] => []
  | x :: xs => insDesc key ltB x (sortDesc key ltB xs)

/-! ## Graph context (`backend/modules/graph_context.py`) -/

/-- Scalar-or-not property value, as stored in a node's `properties` map.
`other` stands for any value that fails Python's
`isinstance(v, (str, int, float))` test. -/
inductive PVal where
  | s (v : String)
  | i (v : Int)
  | f (v : ℚ)
  | other
deriving DecidableEq

/-- A graph node row, as returned by the `get_nodes_system` RPC and the
`nodes` table.  `name`/`description` use `""` for SQL `NULL` (the code only
reads them through `or ""` / truthiness, under which both behave alike);
`updated_at`/`created_at` keep `Option` because `None` and a present value
feed an `or`-chain. -/
structure GNode where
  id : String
  name : String
  type : String
  description : String
  properties : List (String × PVal)
  updated_at : Option String
  created_at : Option String
deriving DecidableEq

/-- An edge row of the `edges` table. -/
structure GEdge where
  id : String
  from_node_id : String
  to_node_id : String
  type : String
deriving DecidableEq

/-- The graph store contents for one twin: the node rows (in database return
order) and the edge rows. -/
structure GStore where
  nodes : List GNode
  edges : List GEdge

/-- MAX_SEED_NODES constant. -/
def MAX_SEED_NODES : Nat := 8

/-- MAX_NODES constant (default `max_nodes`). -/
def MAX_NODES : Nat := 12

/-- MAX_EDGES constant (default `max_edges`). -/
def MAX_EDGES : Nat := 24

/-- The `get_nodes_system` RPC with a row limit: the store's rows, truncated.
The RPC's own ordering is external to this core; it is whatever order
`GStore.nodes` carries. -/
def getNodesSystem (store : GStore) (limit : Nat) : List GNode :=
  store.nodes.take limit

/-- Keyword score of one node against the search terms
(`+3` per term contained in the lower-cased name, `+1` per term contained in
the lower-cased description). -/
def nodeScore (terms : List (List Char)) (n : GNode) : Nat :=
  let name := lowerChars n.name.data
  let desc := lowerChars n.description.data
  terms.foldl
    (fun acc t =>
      acc + (if subOccurs (lowerChars t) name then 3 else 0)
          + (if subOccurs (lowerChars t) desc then 1 else 0))
    0

/-- `_select_seeds`: tokenize the query, keep tokens longer than 2, take the
first 3 as search terms, score the first 100 store nodes, keep positive
scores, stable-sort descending by score, return the top `MAX_SEED_NODES`
nodes.  The empty query models both `None` and `""` (both falsy). -/
def selectSeeds (store : GStore) (query : String) : List GNode :=
  if query = "" then []
  else
    let keywords := (splitWs query.data).filter (fun w => w.length > 2)
    if keywords = [] then []
    else
      let searchTerms := keywords.take 3
      let nodes := getNodesSystem store 100
      let scored := nodes.filterMap (fun n =>
        let score := nodeScore searchTerms n
        if score > 0 then some (score, n) else none)
      let sorted := sortDesc (fun p => p.1) (fun a b => decide (a < b)) scored
      (sorted.take MAX_SEED_NODES).map Prod.snd

/-- `_get_all_nodes`: fallback fetch of all nodes up to `limit`. -/
def getAllNodes (store : GStore) (limit : Nat) : List GNode :=
  getNodesSystem store limit

/-- Insert an id into the neighbour-id set (Python `set.add`; only membership
is ever consumed, so a duplicate-free list is a faithful model). -/
def addId (ids : List String) (x : String) : List String :=
  if ids.contains x then ids else ids ++ [x]

/-- One iteration of the edge scan in `_expand_one_hop`: keep edges touching
`nodeIds`, collecting the far endpoints that are not themselves in `nodeIds`. -/
def scanEdge (nodeIds : List String) (acc : List GEdge × List String) (e : GEdge) :
    List GEdge × List String :=
  if nodeIds.contains e.from_node_id then
    (acc.1 ++ [e],
     if !(nodeIds.contains e.to_node_id) then addId acc.2 e.to_node_id else acc.2)
  else if nodeIds.contains e.to_node_id then
    (acc.1 ++ [e],
     if !(nodeIds.contains e.from_node_id) then addId acc.2 e.from_node_id else acc.2)
  else acc

/-- `_expand_one_hop`: fetch all edges of the twin, keep the ones connected to
`nodeIds`, and fetch the neighbour nodes by id (the `.in_` fetch returns rows
in database order, i.e. the order of `store.nodes`). -/
def expandOneHop (store : GStore) (nodeIds : List String) :
    List GNode × List GEdge :=
  if nodeIds = [] then ([], [])
  else
    let scan := store.edges.foldl (scanEdge nodeIds) ([], [])
    let neighborNodes :=
      if scan.2 = [] then [] else store.nodes.filter (fun n => scan.2.contains n.id)
    (neighborNodes, scan.1)

/-- Python `dict[key] = value` on an insertion-ordered dict keyed by node id:
replace in place if the key exists, else append. -/
def dictInsert (d : List GNode) (n : GNode) : List GNode :=
  if d.any (fun m => m.id = n.id) then
    d.map (fun m => if m.id = n.id then n else m)
  else d ++ [n]

/-- The `all_nodes` dict seeded from the seed-node list. -/
def seedDict (seedNodes : List GNode) : List GNode :=
  seedNodes.foldl dictInsert []

/-- The 1-hop loop: add each neighbour while the dict is under `maxNodes`. -/
def addNeighbors (maxNodes : Nat) (d : List GNode) (l : List GNode) : List GNode :=
  l.foldl (fun d n => if d.length < maxNodes then dictInsert d n else d) d

/-- The 2-hop loop: add each node while under `maxNodes` and not already
present (the code's `node['id'] not in all_nodes` guard makes the write a
plain append). -/
def addHop2 (maxNodes : Nat) (d : List GNode) (l : List GNode) : List GNode :=
  l.foldl
    (fun d n =>
      if d.length < maxNodes ∧ !(d.any (fun m => m.id = n.id)) then d ++ [n] else d)
    d

/-- `_rank_nodes` sort key: `(not is_seed, updated_at or created_at or '')`. -/
def rankKey (seedIds : List String) (n : GNode) : Bool × String :=
  let updated :=
    match n.updated_at with
    | some u => if u = "" then (match n.created_at with
                                | some c => c
                                | none => "") else u
    | none => match n.created_at with
              | some c => if c = "" then "" else c
              | none => ""
  (!(seedIds.contains n.id), updated)

/-- Strict `<` on `(Bool, str)` keys, matching Python tuple comparison with
`False < True` and lexicographic strings. -/
def rankKeyLt (a b : Bool × String) : Bool :=
  (!a.1 && b.1) || (a.1 = b.1 && strLtB a.2 b.2)

/-- `_rank_nodes`: `sorted(nodes, key=sort_key, reverse=True)` — a stable
DESCENDING sort on the `(not is_seed, updated)` key. -/
def rankNodes (nodes : List GNode) (seedIds : List String) : List GNode :=
  sortDesc (rankKey seedIds) rankKeyLt nodes

/-- A node entry of the returned snapshot dict (`{"id", "name", "type"}`). -/
structure SnapNode where
  id : String
  name : String
  type : String
deriving DecidableEq

/-- An edge entry of the returned snapshot dict (`{"id", "type"}` — note the
endpoints are not part of the returned edge dicts). -/
structure SnapEdge where
  id : String
  type : String
deriving DecidableEq

/-- The snapshot dict returned by `get_graph_snapshot`. -/
structure Snapshot where
  context_text : String
  nodes : List SnapNode
  edges : List SnapEdge
  node_count : Nat
  edge_count : Nat
  query : String
deriving DecidableEq

/-- Join string pieces with a separator (Python `sep.join`). -/
def joinSep (sep : String) : List String → String
  | [] => ""
  | [x] => x
  | x :: y :: ys => x ++ sep ++ joinSep sep (y :: ys)

/-- Rendering of a scalar property value inside an f-string.  Rationals stand
in for Python floats; their decimal rendering is abstracted as
`num/den`, which never contains a quote or brace and is otherwise opaque to
every property proved below. -/
def pvalStr : PVal → String
  | .s v => v
  | .i v => toString v
  | .f v => toString v.num ++ "/" ++ toString v.den
  | .other => ""

/-- The `[k: v, ...]` suffix of a node line (at most 3 scalar properties). -/
def propsStr (props : List (String × PVal)) : String :=
  if props = [] then ""
  else
    let items := (props.filter (fun p => p.2 ≠ PVal.other)).take 3
      |>.map (fun p => p.1 ++ ": " ++ pvalStr p.2)
    if items = [] then "" else " [" ++ joinSep (", ") items ++ "]"

/-- One `- name (type): description [...]` line; `none` when name or
description is falsy (the node is skipped). -/
def nodeLine (n : GNode) : Option String :=
  if n.name = "" ∨ n.description = "" then none
  else some ("- " ++ n.name ++ " (" ++ n.type ++ "): " ++ n.description
             ++ propsStr n.properties)

/-- Node-name lookup used for edge lines: a dict comprehension over `nodes`,
so for duplicate ids the LAST occurrence wins; missing ids give `Unknown`. -/
def nameOf (nodes : List GNode) (id : String) : String :=
  match nodes.reverse.find? (fun n => n.id = id) with
  | some n => n.name
  | none => "Unknown"

/-- One `from → type → to` relationship line. -/
def edgeLine (nodes : List GNode) (e : GEdge) : String :=
  "  " ++ nameOf nodes e.from_node_id ++ " → " ++ e.type ++ " → "
    ++ nameOf nodes e.to_node_id

/-- `_format_snapshot`: compress nodes and edges into the snapshot dict. -/
def formatSnapshot (nodes : List GNode) (edges : List GEdge) (query : String) :
    Snapshot :=
  if nodes = [] then ⟨"", [], [], 0, 0, query⟩
  else
    let nodeLines := nodes.filterMap nodeLine
    let edgeLines := (edges.take 10).map (edgeLine nodes)
    let contextText :=
      if nodeLines = [] then ""
      else
        "MEMORIZED KNOWLEDGE (High Priority - Answer from here if relevant):\n"
          ++ joinSep ("\n") nodeLines
          ++ (if edgeLines = [] then ""
              else "\n\nKNOWN RELATIONSHIPS:\n" ++ joinSep ("\n") edgeLines)
    ⟨contextText,
     nodes.map (fun n => ⟨n.id, n.name, n.type⟩),
     edges.map (fun e => ⟨e.id, e.type⟩),
     nodes.length, edges.length, query⟩

/-- The seed ids (`seed_ids`). -/
def seedIdsOf (store : GStore) (query : String) : List String :=
  (selectSeeds store query).map (fun n => n.id)

/-- The 1-hop expansion from the seeds. -/
def hop1Of (store : GStore) (query : String) : List GNode × List GEdge :=
  expandOneHop store (seedIdsOf store query)

/-- The `all_nodes` dict after seeding it and running the 1-hop loop under
the node budget. -/
def budgetNodes (store : GStore) (query : String) (maxNodes : Nat) : List GNode :=
  addNeighbors maxNodes (seedDict (selectSeeds store query)) (hop1Of store query).1

/-- The `all_nodes` dict and accumulated edge list after the conditional
2-hop step: only when there are fewer than 3 seeds and the node budget is not
exhausted, expand one more hop from up to 3 newly added neighbour ids, add
the results under budget, and APPEND the hop-2 edges to the hop-1 edges
without deduplication. -/
def hop2Step (store : GStore) (query : String) (maxNodes : Nat) :
    List GNode × List GEdge :=
  let seedNodes := selectSeeds store query
  let allNodes1 := budgetNodes store query maxNodes
  if seedNodes.length < 3 ∧ allNodes1.length < maxNodes then
    let newNeighborIds :=
      ((hop1Of store query).1.filter
        (fun n => !((seedIdsOf store query).contains n.id))).map (fun n => n.id)
    if newNeighborIds = [] then (allNodes1, (hop1Of store query).2)
    else
      let hop2 := expandOneHop store (newNeighborIds.take 3)
      (addHop2 maxNodes allNodes1 hop2.1, (hop1Of store query).2 ++ hop2.2)
  else (allNodes1, (hop1Of store query).2)

/-- The `final_edges` list: edges whose BOTH endpoints are ids of the
`all_nodes` dict (before ranking/truncation), capped at `maxEdges`. -/
def finalEdgesOf (store : GStore) (query : String) (maxNodes maxEdges : Nat) :
    List GEdge :=
  let finalIds := (hop2Step store query maxNodes).1.map (fun n => n.id)
  ((hop2Step store query maxNodes).2.filter (fun e =>
    finalIds.contains e.from_node_id ∧ finalIds.contains e.to_node_id)).take maxEdges

/-- The node/edge assembly of `get_graph_snapshot` before formatting: seed
selection, the recent-nodes fallback (no edges), or 1-hop/2-hop assembly with
edge filtering, and ranking with truncation to `maxNodes`.  Returns the node
list passed to `_format_snapshot` and the `final_edges` list. -/
def snapshotNodesEdges (store : GStore) (query : String)
    (maxNodes maxEdges : Nat) : List GNode × List GEdge :=
  if selectSeeds store query = [] then
    (getAllNodes store maxNodes, [])
  else
    ((rankNodes (hop2Step store query maxNodes).1 (seedIdsOf store query)).take maxNodes,
     finalEdgesOf store query maxNodes maxEdges)

/-- `get_graph_snapshot` (the non-exception path; all internal errors degrade
to an empty snapshot and are not modelled). -/
def getGraphSnapshot (store : GStore) (query : String)
    (maxNodes maxEdges : Nat) : Snapshot :=
  let ne := snapshotNodesEdges store query maxNodes maxEdges
  formatSnapshot ne.1 ne.2 query

/-! ## Hybrid retrieval (`backend/modules/retrieval.py`) -/

/-- A context chunk as built by `retrieve_context` and serialized by the
`search_knowledge_base` tool (dict keys, in insertion order:
`text`, `score`, `source_id`, `is_verified`). -/
structure Chunk where
  text : String
  score : ℚ
  source_id : String
  is_verified : Bool
deriving DecidableEq

/-- One vector-index match: its similarity score and the metadata fields the
code reads (`text`, and `source_id` which may be absent). -/
structure VMatch where
  score : ℚ
  text : String
  source_id : Option String
deriving DecidableEq

/-- Outcome of the Cohere rerank step: no client configured, the
`rerank` call raising, or a result list of `(index, relevance_score)` pairs. -/
inductive RerankOutcome where
  | noClient
  | fails
  | ok (results : List (Nat × ℚ))

/-- The verified-match pass: threshold `> 0.25`, score forced to `1.0`,
`source_id` defaulting to `"verified_memory"`, `is_verified = True`. -/
def verifiedCtx (vm : List VMatch) : List Chunk :=
  vm.filterMap (fun m =>
    if m.score > 1/4 then
      some ⟨m.text, 1, m.source_id.getD ("verified_memory"), true⟩
    else none)

/-- The general-match pass (`raw_general_chunks`): threshold `> 0.3`, original
score kept, `source_id` defaulting to `"unknown"`, `is_verified = False`. -/
def rawGeneral (gm : List VMatch) : List Chunk :=
  gm.filterMap (fun m =>
    if m.score > 3/10 then
      some ⟨m.text, m.score, m.source_id.getD ("unknown"), false⟩
    else none)

/-- Reconstruction of the reranked chunk list from `(index, score)` results;
`none` models an index out of range, which in the Python code raises inside
the `try` block and falls back.  (Result indices are treated as aliasing-free:
the reranker returns distinct indices.) -/
def buildReranked (raw : List Chunk) : List (Nat × ℚ) → Option (List Chunk)
  | [] => some []
  | (i, s) :: rest =>
    (raw.get? i).bind (fun c =>
      (buildReranked raw rest).map (fun l => { c with score := s } :: l))

/-- The unverified portion of the retrieval result: reranked when a client is
configured, non-empty input and the call succeeds; otherwise the raw
vector-order chunks truncated to `top_k`. -/
def unvCtx (raw : List Chunk) (rk : RerankOutcome) (topK : Nat) : List Chunk :=
  if raw = [] then raw.take topK
  else
    match rk with
    | .noClient => raw.take topK
    | .fails => raw.take topK
    | .ok results =>
      match buildReranked raw results with
      | some l => l
      | none => raw.take topK

/-- `retrieve_context`: verified chunks first, then the unverified portion,
truncated to `top_k` in total (default 5). -/
def retrieveContext (vm gm : List VMatch) (rk : RerankOutcome) (topK : Nat) :
    List Chunk :=
  (verifiedCtx vm ++ unvCtx (rawGeneral gm) rk topK).take topK

/-! ## Tool-output serialization (`json.dumps` in `tools.py`)

`search_knowledge_base` returns `json.dumps(contexts)`.  The serializer below
reproduces Python's default rendering for this payload shape: `", "` item
separator, `": "` key separator, and backslash-escaping inside string values.
Control characters other than `\n`, `\t`, `\r` are not used by any input
considered here; the rational score rendering is abstracted (it contains no
quote or brace characters, which is all any proof below relies on). -/

/-- JSON string-value escaping of one character. -/
def escChar (c : Char) : List Char :=
  if c = '"' then ['\\', '"']
  else if c = '\\' then ['\\', '\\']
  else if c = '\n' then ['\\', 'n']
  else if c = '\t' then ['\\', 't']
  else if c = '\r' then ['\\', 'r']
  else [c]

/-- JSON string-value escaping. -/
def escStr (s : String) : String :=
  ⟨(s.data.map escChar).flatten⟩

/-- Rendering of a JSON number (see the note above). -/
def ratStr (q : ℚ) : String :=
  toString q.num ++ "/" ++ toString q.den

/-- `json.dumps` of one chunk dict. -/
def dumpChunk (c : Chunk) : String :=
  "\x7b\"text\": \"" ++ escStr c.text
    ++ "\", \"score\": " ++ ratStr c.score
    ++ ", \"source_id\": \"" ++ escStr c.source_id
    ++ "\", \"is_verified\": " ++ (if c.is_verified then "true" else "false")
    ++ "\x7d"

/-- `json.dumps` of the chunk list. -/
def dumpChunks (l : List Chunk) : String :=
  "[" ++ joinSep (", ") (l.map dumpChunk) ++ "]"

/-! ## Agent tool loop (`backend/modules/agent.py`) -/

/-- The payload of a `ToolMessage`.  The retrieval tool always produces
`json.dumps` of a chunk list (`chunks`); any other tool produces an arbitrary
raw string (`raw`), which also stands for retrieval output that fails both the
JSON and the literal parse (contributing nothing). -/
inductive Payload where
  | chunks (l : List Chunk)
  | raw (s : String)

/-- A `ToolMessage`: the tool's name and its payload. -/
structure ToolMsg where
  name : String
  payload : Payload

/-- The message's string content as seen by `handle_tools`
(`msg.content`). -/
def contentOf (m : ToolMsg) : String :=
  match m.payload with
  | .chunks l => dumpChunks l
  | .raw s => s

/-- The items the parsing loop extracts from one message: only
`search_knowledge_base` messages are parsed, and parsing `json.dumps` of a
chunk list recovers the chunks (`json.loads ∘ json.dumps = id`); a raw
payload yields nothing. -/
def parsedItems (m : ToolMsg) : List Chunk :=
  if m.name = "search_knowledge_base" then
    match m.payload with
    | .chunks l => l
    | .raw _ => []
  else []

/-- Accumulated `total_score` over a tool turn (every parsed chunk dict
carries a `"score"` key). -/
def scoreSum (msgs : List ToolMsg) : ℚ :=
  (msgs.map (fun m => ((parsedItems m).map Chunk.score).sum)).sum

/-- Accumulated `score_count` over a tool turn. -/
def scoreCount (msgs : List ToolMsg) : Nat :=
  (msgs.map (fun m => (parsedItems m).length)).sum

/-- Citations appended over a tool turn (every parsed chunk dict carries a
`"source_id"` key). -/
def citationsOf (msgs : List ToolMsg) : List String :=
  (msgs.map (fun m => (parsedItems m).map Chunk.source_id)).flatten

/-- The `has_verified` test of `handle_tools`: a SUBSTRING search for
`"is_verified"` and `'"is_verified": true'` in the raw string content of
EVERY tool message of the turn (not only the retrieval tool's, and not on the
parsed items). -/
def hasVerifiedSub (msgs : List ToolMsg) : Bool :=
  msgs.any (fun m =>
    hasSub (contentOf m) ("is_verified") && hasSub (contentOf m) ("\"is_verified\": true"))

/-- The confidence written by one `TOOLS` step: `1.0` on a verified
substring hit, else the mean score — but only when at least one score was
parsed; with no parsed scores the confidence is `0.0` (the verified check is
not even reached). -/
def stepConfidence (msgs : List ToolMsg) : ℚ :=
  if scoreCount msgs > 0 then
    if hasVerifiedSub msgs then 1 else scoreSum msgs / (scoreCount msgs : ℚ)
  else 0

/-- The deduplicated citation list returned by one `TOOLS` step
(`list(set(citations))`; Python's set iteration order is unspecified, so only
the membership of this list is meaningful). -/
def stepCitations (cits : List String) (msgs : List ToolMsg) : List String :=
  (cits ++ citationsOf msgs).dedup

/-- The agent state's confidence after a whole run: it starts at `1.0`
(`run_agent_stream`) and each `TOOLS` step REPLACES it with that step's
confidence. -/
def agentFinalConfidence (steps : List (List ToolMsg)) : ℚ :=
  steps.foldl (fun _ s => stepConfidence s) 1

/-! ## Chat streaming (`stream_generator` in `backend/main.py`) -/

/-- One event from `agent.astream(..., stream_mode="updates")`: a `tools`
node update (citations and confidence) or an `agent` node update carrying the
latest assistant message's content (`""` when the message has no content,
e.g. a bare tool-call request). -/
inductive Event where
  | tools (citations : List String) (confidence : ℚ)
  | agent (content : String)
deriving DecidableEq

/-- One newline-delimited JSON event emitted to the caller. -/
inductive Out where
  | metadata (confidence : ℚ) (citations : List String)
  | content (s : String)
  | done (escalated : Bool)
deriving DecidableEq

/-- Is this output the metadata event? -/
def Out.isMeta : Out → Bool
  | .metadata _ _ => true
  | _ => false

/-- Is this output a content event? -/
def Out.isContentEv : Out → Bool
  | .content _ => true
  | _ => false

/-- Is this output the done event? -/
def Out.isDoneEv : Out → Bool
  | .done _ => true
  | _ => false

/-- The escalation decision of `stream_generator`:
`escalated = (confidence_score < 0.7)`. -/
def escalateB (conf : ℚ) : Bool :=
  decide (conf < 7/10)

/-- The body of `stream_generator`: state is
`(final_content, citations, confidence_score, sent_metadata)`, initialised to
`("", [], 0.0, False)`.  A `tools` event replaces citations/confidence and
emits the metadata event if not yet sent; an `agent` event emits the suffix
of the message content beyond what was already emitted, if non-empty.  After
the loop: metadata if never sent, then the terminal `done` event. -/
def streamLoop (fc : String) (cits : List String) (conf : ℚ) (sent : Bool) :
    List Event → List Out
  | [] =>
    (if sent then [] else [Out.metadata conf cits]) ++ [Out.done (escalateB conf)]
  | Event.tools c q :: rest =>
    (if sent then [] else [Out.metadata q c]) ++ streamLoop fc c q true rest
  | Event.agent s :: rest =>
    let chunk := strDropPy s (strLenPy fc)
    if chunk = "" then streamLoop fc cits conf sent rest
    else Out.content chunk :: streamLoop (fc ++ chunk) cits conf sent rest

/-- The full event sequence emitted for one chat request. -/
def streamGen (events : List Event) : List Out :=
  streamLoop ("") [] 0 false events

/-- The `confidence_score` update of `stream_generator` for one event: a
`tools` event replaces it, an `agent` event leaves it. -/
def confFold (c : ℚ) : Event → ℚ
  | Event.tools _ q => q
  | Event.agent _ => c

/-- The confidence `stream_generator` holds after folding the events,
starting from its initial `0.0`: the last `tools` event's confidence. -/
def reportedConfidence (events : List Event) : ℚ :=
  events.foldl confFold 0

/-- Is this an `agent` node event? -/
def isAgentEvent : Event → Bool
  | .agent _ => true
  | .tools _ _ => false

/-- The content carried by an `agent` event (`""` for `tools` events). -/
def agentContent : Event → String
  | .agent s => s
  | .tools _ _ => ""

/-- No `content` event precedes the `metadata` event in this output list. -/
def noContentBeforeMeta (outs : List Out) : Bool :=
  (outs.takeWhile (fun o => !o.isMeta)).all (fun o => !o.isContentEv)

/-- Did some `search_knowledge_base` message of the turn parse to an item
with `is_verified` true?  (What the specification calls a verified hit among
the PARSED tool results.) -/
def parsedVerifiedHit (msgs : List ToolMsg) : Prop :=
  ∃ m ∈ msgs, ∃ c ∈ parsedItems m, c.is_verified = true

instance (msgs : List ToolMsg) : Decidable (parsedVerifiedHit msgs) := by
  unfold parsedVerifiedHit; infer_instance

/-! ## Concrete demonstration data -/

/-- The rational 1/2 in normalised constructor form (kernel-reducible). -/
def q12 : ℚ := ⟨1, 2, by norm_num, by norm_num⟩

/-- Demo graph: node `a` matches the query `"alpha"`. -/
def nodeA : GNode := ⟨"a", "alpha", "t", "d1", [], some ("2024-02"), none⟩

/-- Demo graph: node `b` does not match the query; it is older than `a`. -/
def nodeB : GNode := ⟨"b", "beta", "t", "d2", [], some ("2024-01"), none⟩

/-- Demo graph: the single edge `a → b`. -/
def edgeE : GEdge := ⟨"e1", "a", "b", "KNOWS"⟩

/-- Demo graph store with one seed-matching node, one neighbour, one edge. -/
def storeA : GStore := ⟨[nodeA, nodeB], [edgeE]⟩

/-- Second demo graph: BOTH nodes match the query `"alpha"` (two seeds),
connected by one edge. -/
def storeB : GStore :=
  ⟨[⟨"a", "alpha one", "t", "", [], some ("2"), none⟩,
    ⟨"b", "alpha two", "t", "", [], some ("1"), none⟩],
   [⟨"e", "a", "b", "R"⟩]⟩

/-- A tool turn whose retrieval output parses to one verified chunk. -/
def msgsV : List ToolMsg :=
  [⟨"search_knowledge_base", Payload.chunks [⟨"Paris", 1, "doc1", true⟩]⟩]

/-- A tool turn whose retrieval output parses to one unverified chunk of
score 1/2. -/
def msgsU : List ToolMsg :=
  [⟨"search_knowledge_base", Payload.chunks [⟨"txt", q12, "doc2", false⟩]⟩]

/-- A chunk text that CONTAINS the literal text `"is_verified": true`. -/
def trickText : String := "note: \"is_verified\": true is a flag"

/-- A tool turn whose single parsed chunk is unverified but whose text field
contains the verified-hit literal. -/
def msgsX : List ToolMsg :=
  [⟨"search_knowledge_base", Payload.chunks [⟨trickText, q12, "doc9", false⟩]⟩]

/-- A tool turn with an unverified retrieval chunk plus a NON-retrieval tool
message whose raw content contains the verified-hit literal. -/
def msgsY : List ToolMsg :=
  [⟨"search_knowledge_base", Payload.chunks [⟨"t", q12, "d", false⟩]⟩,
   ⟨"duckduckgo_search", Payload.raw ("web result: \"is_verified\": true appears here")⟩]

/-! ## Helper lemmas: the stable sort -/

lemma mem_insDesc {key : α → β} {ltB : β → β → Bool} {x a : α} {l : List α} :
    a ∈ insDesc key ltB x l ↔ a = x ∨ a ∈ l := by
  induction l with
  | nil => simp [insDesc]
  | cons y ys ih =>
    simp only [insDesc]
    split
    · simp only [List.mem_cons, ih]
      tauto
    · simp only [List.mem_cons]

lemma mem_sortDesc {key : α → β} {ltB : β → β → Bool} {a : α} {l : List α} :
    a ∈ sortDesc key ltB l ↔ a ∈ l := by
  induction l with
  | nil => simp [sortDesc]
  | cons x xs ih => simp [sortDesc, mem_insDesc, ih]

lemma length_insDesc {key : α → β} {ltB : β → β → Bool} (x : α) (l : List α) :
    (insDesc key ltB x l).length = l.length + 1 := by
  induction l with
  | nil => simp [insDesc]
  | cons y ys ih =>
    simp only [insDesc]
    split <;> simp [ih]

lemma length_sortDesc {key : α → β} {ltB : β → β → Bool} (l : List α) :
    (sortDesc key ltB l).length = l.length := by
  induction l with
  | nil => rfl
  | cons x xs ih => simp [sortDesc, length_insDesc, ih]

/-! ## Helper lemmas: the node-budget bounds of the snapshot assembly -/

lemma length_dictInsert_le (d : List GNode) (n : GNode) :
    (dictInsert d n).length ≤ d.length + 1 := by
  unfold dictInsert
  split <;> simp

lemma length_foldl_dictInsert_le :
    ∀ (l : List GNode) (d : List GNode),
      (l.foldl dictInsert d).length ≤ d.length + l.length := by
  intro l
  induction l with
  | nil => simp
  | cons n ns ih =>
    intro d
    have h1 := ih (dictInsert d n)
    have h2 := length_dictInsert_le d n
    simp only [List.foldl_cons, List.length_cons]
    omega

lemma length_seedDict_le (l : List GNode) : (seedDict l).length ≤ l.length := by
  have := length_foldl_dictInsert_le l []
  simpa [seedDict] using this

lemma length_addNeighbors_le (maxN : Nat) :
    ∀ (l : List GNode) (d : List GNode), d.length ≤ maxN →
      (addNeighbors maxN d l).length ≤ maxN := by
  intro l
  induction l with
  | nil => intro d h; simpa [addNeighbors] using h
  | cons n ns ih =>
    intro d h
    have hstep : (if d.length < maxN then dictInsert d n else d).length ≤ maxN := by
      split
      · have := length_dictInsert_le d n
        omega
      · exact h
    have := ih (if d.length < maxN then dictInsert d n else d) hstep
    simpa [addNeighbors] using this

lemma length_addHop2_le (maxN : Nat) :
    ∀ (l : List GNode) (d : List GNode), d.length ≤ maxN →
      (addHop2 maxN d l).length ≤ maxN := by
  intro l
  induction l with
  | nil => intro d h; simpa [addHop2] using h
  | cons n ns ih =>
    intro d h
    have hstep :
        (if d.length < maxN ∧ !(d.any (fun m => m.id = n.id)) then d ++ [n] else d).length
          ≤ maxN := by
      split
      · rename_i hc
        simp only [List.length_append, List.length_cons, List.length_nil]
        omega
      · exact h
    have := ih _ hstep
    simpa [addHop2] using this

lemma hop2Step_fst_length_le (store : GStore) (query : String) (maxN : Nat)
    (h : (selectSeeds store query).length ≤ maxN) :
    (hop2Step store query maxN).1.length ≤ maxN := by
  have h0 : (seedDict (selectSeeds store query)).length ≤ maxN :=
    le_trans (length_seedDict_le _) h
  have h1 : (budgetNodes store query maxN).length ≤ maxN :=
    length_addNeighbors_le _ _ _ h0
  simp only [hop2Step]
  split
  · split
    · exact h1
    · exact length_addHop2_le _ _ _ h1
  · exact h1

lemma mem_map_id_of_rank (l : List GNode) (sid : List String) (x : String)
    (h : x ∈ l.map (fun n => n.id)) :
    x ∈ (rankNodes l sid).map (fun n => n.id) := by
  simp only [List.mem_map] at h ⊢
  obtain ⟨n, hn, rfl⟩ := h
  exact ⟨n, mem_sortDesc.2 hn, rfl⟩

lemma formatSnapshot_nodes_map_id (nodes : List GNode) (edges : List GEdge)
    (query : String) :
    (formatSnapshot nodes edges query).nodes.map SnapNode.id
      = nodes.map (fun n => n.id) := by
  unfold formatSnapshot
  split
  · rename_i h
    rw [h]
    simp
  · simp [List.map_map]

/-! ## Claim C1 -/

/-- C1, counterexample.  The claim quantifies over EVERY `maxNodes`; with
`maxNodes = 1` and two seed nodes (`storeB`), the seed dict is filled past the
budget (seed insertion is unconditional), the edge filter runs against the
full dict, and the node list is truncated only afterwards — so the returned
snapshot has the edge `e` while node `b`, the edge's target endpoint, is not
among the returned nodes. -/
theorem C1_cex :
    (snapshotNodesEdges storeB ("alpha") 1 24).2 = [⟨"e", "a", "b", "R"⟩] ∧
    (getGraphSnapshot storeB ("alpha") 1 24).edges = [⟨"e", "R"⟩] ∧
    (getGraphSnapshot storeB ("alpha") 1 24).nodes.map SnapNode.id = ["a"] ∧
    ("b" : String) ∉ (getGraphSnapshot storeB ("alpha") 1 24).nodes.map SnapNode.id := by
  refine ⟨by decide, by decide, by decide, by decide⟩

/-- C1, amended: provided the selected seed count is at most `maxNodes`
(always true at the defaults, where seeds are capped at `MAX_SEED_NODES = 8 ≤
MAX_NODES = 12`), every edge of the snapshot's `final_edges` list has both its
`from_node_id` and its `to_node_id` among the ids of the snapshot's returned
nodes.  (The returned edge dicts themselves carry only `id` and `type`; the
endpoint property is stated of the `final_edges` the snapshot is built from,
which match the returned edges one-to-one.) -/
theorem C1_amended (store : GStore) (query : String) (maxN maxE : Nat)
    (hseeds : (selectSeeds store query).length ≤ maxN) :
    ∀ e ∈ (snapshotNodesEdges store query maxN maxE).2,
      e.from_node_id ∈ (getGraphSnapshot store query maxN maxE).nodes.map SnapNode.id ∧
      e.to_node_id ∈ (getGraphSnapshot store query maxN maxE).nodes.map SnapNode.id := by
  intro e he
  by_cases hs : selectSeeds store query = []
  · simp [snapshotNodesEdges, hs] at he
  · have hlen : (hop2Step store query maxN).1.length ≤ maxN :=
      hop2Step_fst_length_le _ _ _ hseeds
    have hsne : (snapshotNodesEdges store query maxN maxE).2
        = finalEdgesOf store query maxN maxE := by
      simp [snapshotNodesEdges, hs]
    rw [hsne] at he
    have he2 : e ∈ (hop2Step store query maxN).2.filter (fun e =>
        (((hop2Step store query maxN).1.map (fun n => n.id)).contains e.from_node_id ∧
         ((hop2Step store query maxN).1.map (fun n => n.id)).contains e.to_node_id :
          Prop)) := by
      simp only [finalEdgesOf] at he
      exact List.take_subset _ _ he
    obtain ⟨_, hP⟩ := List.mem_filter.1 he2
    simp only [decide_eq_true_eq, List.contains_iff_exists_mem_beq, beq_iff_eq] at hP
    obtain ⟨hxf, hxt⟩ := hP
    have hrankLen :
        (rankNodes (hop2Step store query maxN).1 (seedIdsOf store query)).length ≤ maxN := by
      unfold rankNodes
      rw [length_sortDesc]
      exact hlen
    have htake :
        (rankNodes (hop2Step store query maxN).1 (seedIdsOf store query)).take maxN
          = rankNodes (hop2Step store query maxN).1 (seedIdsOf store query) :=
      List.take_of_length_le hrankLen
    have hgs : getGraphSnapshot store query maxN maxE
        = formatSnapshot
            ((rankNodes (hop2Step store query maxN).1 (seedIdsOf store query)).take maxN)
            (finalEdgesOf store query maxN maxE) query := by
      simp only [getGraphSnapshot, snapshotNodesEdges, if_neg hs]
    rw [hgs, htake, formatSnapshot_nodes_map_id]
    obtain ⟨af, haf, hfe⟩ := hxf
    obtain ⟨bt, hbt, hte⟩ := hxt
    rw [hfe, hte]
    exact ⟨mem_map_id_of_rank _ _ _ haf, mem_map_id_of_rank _ _ _ hbt⟩

/-- C1, witness for the amended theorem at the concrete demo store with the
default caps. -/
theorem C1_amended_w :
    edgeE.from_node_id ∈ (getGraphSnapshot storeA ("alpha") 12 24).nodes.map SnapNode.id ∧
    edgeE.to_node_id ∈ (getGraphSnapshot storeA ("alpha") 12 24).nodes.map SnapNode.id :=
  C1_amended storeA ("alpha") 12 24 (by decide) edgeE (by decide)

/-! ## Claim C2 -/

/-- C2, evaluation of the ranking bug.  `_rank_nodes` sorts with
`reverse=True` on the key `(not is_seed, updated)`, which puts NON-seeds
before seeds: in `storeA`, node `a` is the only seed (and even the most
recently updated node), yet the snapshot orders the non-seed `b` first.  The
docstring ("seeds first") and the inline comment ("False sorts before True")
describe the opposite, intended order. -/
theorem C2_bug_eval :
    (selectSeeds storeA ("alpha")).map GNode.id = ["a"] ∧
    rankNodes [nodeA, nodeB] ["a"] = [nodeB, nodeA] ∧
    (getGraphSnapshot storeA ("alpha") 12 24).nodes.map SnapNode.id = ["b", "a"] := by
  refine ⟨by decide, by decide, by decide⟩

/-! ## Helper lemmas: retrieval chunk provenance -/

lemma mem_verifiedCtx {vm : List VMatch} {c : Chunk} (h : c ∈ verifiedCtx vm) :
    c.is_verified = true ∧ c.score = 1 := by
  simp only [verifiedCtx, List.mem_filterMap] at h
  obtain ⟨m, _, hm⟩ := h
  split at hm
  · cases hm
    exact ⟨rfl, rfl⟩
  · cases hm

lemma mem_rawGeneral {gm : List VMatch} {c : Chunk} (h : c ∈ rawGeneral gm) :
    c.is_verified = false := by
  simp only [rawGeneral, List.mem_filterMap] at h
  obtain ⟨m, _, hm⟩ := h
  split at hm
  · cases hm
    rfl
  · cases hm

lemma mem_buildReranked :
    ∀ {rs : List (Nat × ℚ)} {raw l : List Chunk}, buildReranked raw rs = some l →
      ∀ c ∈ l, ∃ d ∈ raw, c.is_verified = d.is_verified := by
  intro rs
  induction rs with
  | nil =>
    intro raw l h c hc
    simp only [buildReranked, Option.some.injEq] at h
    subst h
    cases hc
  | cons p rest ih =>
    intro raw l h c hc
    obtain ⟨i, s⟩ := p
    simp only [buildReranked, Option.bind_eq_some, Option.map_eq_some'] at h
    obtain ⟨d, hget, l', hrest, rfl⟩ := h
    rcases List.mem_cons.1 hc with rfl | hc'
    · exact ⟨d, List.get?_mem hget, rfl⟩
    · exact ih hrest c hc'

lemma mem_unvCtx {raw : List Chunk} {rk : RerankOutcome} {topK : Nat} {c : Chunk}
    (h : c ∈ unvCtx raw rk topK) : ∃ d ∈ raw, c.is_verified = d.is_verified := by
  unfold unvCtx at h
  split at h
  · exact ⟨c, List.take_subset _ _ h, rfl⟩
  · split at h
    · exact ⟨c, List.take_subset _ _ h, rfl⟩
    · exact ⟨c, List.take_subset _ _ h, rfl⟩
    · rename_i results
      rcases hb : buildReranked raw results with _ | l
      · rw [hb] at h
        exact ⟨c, List.take_subset _ _ h, rfl⟩
      · rw [hb] at h
        exact mem_buildReranked hb c h

/-! ## Claim C4 -/

/-- C4: every chunk returned by `retrieve_context` with `is_verified` true
has score exactly `1.0` (the verified pass forces the score and the
unverified pass never marks a chunk verified), and the returned sequence
splits as verified chunks followed by unverified chunks. -/
theorem C4_verified_first (vm gm : List VMatch) (rk : RerankOutcome) (topK : Nat) :
    (∀ c ∈ retrieveContext vm gm rk topK, c.is_verified = true → c.score = 1) ∧
    ∃ v u, retrieveContext vm gm rk topK = v ++ u ∧
      (∀ c ∈ v, c.is_verified = true ∧ c.score = 1) ∧
      (∀ c ∈ u, c.is_verified = false) := by
  constructor
  · intro c hc hv
    have hc' : c ∈ verifiedCtx vm ++ unvCtx (rawGeneral gm) rk topK :=
      List.take_subset _ _ hc
    rcases List.mem_append.1 hc' with h | h
    · exact (mem_verifiedCtx h).2
    · obtain ⟨d, hd, he⟩ := mem_unvCtx h
      rw [hv, mem_rawGeneral hd] at he
      cases he
  · refine ⟨(verifiedCtx vm).take topK,
      (unvCtx (rawGeneral gm) rk topK).take (topK - (verifiedCtx vm).length),
      ?_, ?_, ?_⟩
    · unfold retrieveContext
      exact List.take_append_eq_append_take
    · intro c hc
      exact mem_verifiedCtx (List.take_subset _ _ hc)
    · intro c hc
      obtain ⟨d, hd, he⟩ := mem_unvCtx (List.take_subset _ _ hc)
      rw [he, mem_rawGeneral hd]

/-- C4, witness: the theorem instantiated at a concrete query result. -/
theorem C4_verified_first_w :
    (∀ c ∈ retrieveContext [⟨q12, "owner fact", some "v1"⟩]
        [⟨q12, "doc text", some "d1"⟩] RerankOutcome.noClient 5,
      c.is_verified = true → c.score = 1) ∧
    ∃ v u, retrieveContext [⟨q12, "owner fact", some "v1"⟩]
        [⟨q12, "doc text", some "d1"⟩] RerankOutcome.noClient 5 = v ++ u ∧
      (∀ c ∈ v, c.is_verified = true ∧ c.score = 1) ∧
      (∀ c ∈ u, c.is_verified = false) :=
  C4_verified_first [⟨q12, "owner fact", some "v1"⟩]
    [⟨q12, "doc text", some "d1"⟩] RerankOutcome.noClient 5

/-! ## Claim C6 -/

/-- C6: when the rerank call raises, `retrieve_context` returns exactly what
it returns with no reranker configured, and the unverified portion is the
vector-similarity-ordered unverified chunks truncated to `top_k` — never an
empty result or a propagated error. -/
theorem C6_rerank_fallback (vm gm : List VMatch) (topK : Nat) :
    retrieveContext vm gm RerankOutcome.fails topK
      = retrieveContext vm gm RerankOutcome.noClient topK ∧
    unvCtx (rawGeneral gm) RerankOutcome.fails topK = (rawGeneral gm).take topK := by
  have h1 : unvCtx (rawGeneral gm) RerankOutcome.fails topK
      = (rawGeneral gm).take topK := by
    unfold unvCtx
    split <;> rfl
  have h2 : unvCtx (rawGeneral gm) RerankOutcome.noClient topK
      = (rawGeneral gm).take topK := by
    unfold unvCtx
    split <;> rfl
  refine ⟨?_, h1⟩
  unfold retrieveContext
  rw [h1, h2]

/-- C6, witness: the theorem instantiated at a concrete query result. -/
theorem C6_rerank_fallback_w :
    retrieveContext [] [⟨q12, "doc text", some "d1"⟩] RerankOutcome.fails 5
      = retrieveContext [] [⟨q12, "doc text", some "d1"⟩] RerankOutcome.noClient 5 ∧
    unvCtx (rawGeneral [⟨q12, "doc text", some "d1"⟩]) RerankOutcome.fails 5
      = (rawGeneral [⟨q12, "doc text", some "d1"⟩]).take 5 :=
  C6_rerank_fallback [] [⟨q12, "doc text", some "d1"⟩] 5

/-! ## Helper lemmas: substring search over the serialized tool output -/

lemma leadsList_append (t b : List Char) : leadsList t (t ++ b) = true := by
  induction t with
  | nil => rfl
  | cons a as ih => simp [leadsList, ih]

lemma subOccurs_of_leadsList {t s : List Char} (h : leadsList t s = true) :
    subOccurs t s = true := by
  cases s with
  | nil => simpa [subOccurs] using h
  | cons c cs => simp [subOccurs, h]

lemma leadsList_mono : ∀ {t s : List Char} (r : List Char),
    leadsList t s = true → leadsList t (s ++ r) = true := by
  intro t
  induction t with
  | nil => intro s r _; rfl
  | cons a as ih =>
    intro s r h
    cases s with
    | nil => simp [leadsList] at h
    | cons b bs =>
      simp only [leadsList, Bool.and_eq_true, decide_eq_true_eq] at h
      simp [leadsList, h.1, ih r h.2]

lemma subOccurs_append_right (t r s : List Char) (h : subOccurs t s = true) :
    subOccurs t (r ++ s) = true := by
  induction r with
  | nil => simpa using h
  | cons c cs ih => simp [subOccurs, ih]

lemma subOccurs_append_left (t : List Char) :
    ∀ (s r : List Char), subOccurs t s = true → subOccurs t (s ++ r) = true := by
  intro s
  induction s with
  | nil =>
    intro r h
    cases t with
    | nil =>
      induction r with
      | nil => rfl
      | cons c cs ihr => simp [subOccurs, leadsList]
    | cons a as => simp [subOccurs, leadsList] at h
  | cons c cs ih =>
    intro r h
    simp only [subOccurs, Bool.or_eq_true] at h
    rcases h with h | h
    · exact subOccurs_of_leadsList (leadsList_mono r h)
    · simpa [subOccurs] using Or.inr (ih r h)

lemma subOccurs_of_middle (t a m b : List Char) (h : subOccurs t m = true) :
    subOccurs t (a ++ (m ++ b)) = true :=
  subOccurs_append_right _ _ _ (subOccurs_append_left _ _ _ h)

lemma joinSep_mem_split (sep : String) :
    ∀ (parts : List String) (x : String), x ∈ parts →
      ∃ A B : List Char, (joinSep sep parts).data = A ++ (x.data ++ B) := by
  intro parts
  induction parts with
  | nil => intro x hx; cases hx
  | cons p ps ih =>
    intro x hx
    cases ps with
    | nil =>
      rcases List.mem_singleton.1 hx with rfl
      exact ⟨[], [], by simp [joinSep]⟩
    | cons q qs =>
      rcases List.mem_cons.1 hx with rfl | hx'
      · refine ⟨[], (sep.data ++ (joinSep sep (q :: qs)).data), ?_⟩
        simp [joinSep, String.data_append]
      · obtain ⟨A, B, hAB⟩ := ih x hx'
        refine ⟨p.data ++ sep.data ++ A, B, ?_⟩
        simp [joinSep, String.data_append, hAB]

lemma subOccurs_dumpChunk_verified (c : Chunk) (h : c.is_verified = true) :
    subOccurs ("\"is_verified\": true".data) (dumpChunk c).data = true ∧
    subOccurs ("is_verified".data) (dumpChunk c).data = true := by
  have hdata : (dumpChunk c).data
      = ("\x7b\"text\": \"" : String).data ++ ((escStr c.text).data
        ++ (("\", \"score\": " : String).data ++ ((ratStr c.score).data
        ++ ((", \"source_id\": \"" : String).data ++ ((escStr c.source_id).data
        ++ (("\", \"is_verified\": " : String).data
            ++ (("true" : String).data ++ ("\x7d" : String).data))))))) := by
    simp [dumpChunk, h, String.data_append, List.append_assoc]
  have htail1 : subOccurs ("\"is_verified\": true".data)
      (("\", \"is_verified\": " : String).data
        ++ (("true" : String).data ++ ("\x7d" : String).data)) = true := by decide
  have htail2 : subOccurs ("is_verified".data)
      (("\", \"is_verified\": " : String).data
        ++ (("true" : String).data ++ ("\x7d" : String).data)) = true := by decide
  constructor
  · rw [hdata]
    exact subOccurs_append_right _ _ _ (subOccurs_append_right _ _ _
      (subOccurs_append_right _ _ _ (subOccurs_append_right _ _ _
        (subOccurs_append_right _ _ _ (subOccurs_append_right _ _ _ htail1)))))
  · rw [hdata]
    exact subOccurs_append_right _ _ _ (subOccurs_append_right _ _ _
      (subOccurs_append_right _ _ _ (subOccurs_append_right _ _ _
        (subOccurs_append_right _ _ _ (subOccurs_append_right _ _ _ htail2)))))

lemma parsedItems_cases (m : ToolMsg) {c : Chunk} (hc : c ∈ parsedItems m) :
    m.name = "search_knowledge_base" ∧ ∃ l, m.payload = Payload.chunks l ∧ c ∈ l := by
  unfold parsedItems at hc
  split at hc
  · rename_i hname
    rcases hp : m.payload with l | s
    · rw [hp] at hc
      exact ⟨hname, l, rfl, hc⟩
    · rw [hp] at hc
      cases hc
  · cases hc

lemma hasSub_dumpChunks_of_verified {l : List Chunk} {c : Chunk} (hc : c ∈ l)
    (hv : c.is_verified = true) :
    hasSub (dumpChunks l) ("\"is_verified\": true") = true ∧
    hasSub (dumpChunks l) ("is_verified") = true := by
  obtain ⟨A, B, hAB⟩ := joinSep_mem_split (", ") (l.map dumpChunk) (dumpChunk c)
    (List.mem_map_of_mem _ hc)
  have hdata : (dumpChunks l).data
      = (("[" : String).data ++ A) ++ ((dumpChunk c).data
          ++ (B ++ ("]" : String).data)) := by
    simp [dumpChunks, String.data_append, hAB, List.append_assoc]
  obtain ⟨h1, h2⟩ := subOccurs_dumpChunk_verified c hv
  constructor
  · unfold hasSub
    rw [hdata]
    exact subOccurs_append_right _ _ _ (subOccurs_append_left _ _ _ h1)
  · unfold hasSub
    rw [hdata]
    exact subOccurs_append_right _ _ _ (subOccurs_append_left _ _ _ h2)

lemma hasVerifiedSub_of_parsed {msgs : List ToolMsg} (h : parsedVerifiedHit msgs) :
    hasVerifiedSub msgs = true := by
  obtain ⟨m, hm, c, hc, hv⟩ := h
  obtain ⟨hname, l, hp, hcl⟩ := parsedItems_cases m hc
  have hcontent : contentOf m = dumpChunks l := by
    unfold contentOf
    rw [hp]
  obtain ⟨h1, h2⟩ := hasSub_dumpChunks_of_verified hcl hv
  refine List.any_eq_true.2 ⟨m, hm, ?_⟩
  rw [hcontent]
  simp [h1, h2]

lemma scoreCount_pos_of_parsed {msgs : List ToolMsg} (h : parsedVerifiedHit msgs) :
    0 < scoreCount msgs := by
  obtain ⟨m, hm, c, hc, _⟩ := h
  have hlen : 0 < (parsedItems m).length := List.length_pos.2 (by
    intro hnil
    rw [hnil] at hc
    cases hc)
  have hmem : (parsedItems m).length ∈ msgs.map (fun m => (parsedItems m).length) :=
    List.mem_map_of_mem _ hm
  have := List.single_le_sum (l := msgs.map (fun m => (parsedItems m).length))
    (fun x _ => Nat.zero_le x) _ hmem
  unfold scoreCount
  omega

lemma stepConfidence_eq_one_of_parsed {msgs : List ToolMsg}
    (h : parsedVerifiedHit msgs) : stepConfidence msgs = 1 := by
  unfold stepConfidence
  rw [if_pos (scoreCount_pos_of_parsed h), if_pos (hasVerifiedSub_of_parsed h)]

lemma q12_eq : q12 = 1/2 := by
  rw [← Rat.num_div_den q12]
  norm_num [q12]

lemma stepConfidence_msgsU : stepConfidence msgsU = q12 := by
  have hva : hasVerifiedSub msgsU = false := by decide
  have hcnt : scoreCount msgsU = 1 := by decide
  have hsum : scoreSum msgsU = q12 := by
    simp [scoreSum, msgsU, parsedItems]
  rw [stepConfidence, if_pos (by omega : scoreCount msgsU > 0), hva]
  simp [hsum, hcnt]

/-! ## Claim C3 -/

/-- C3, counterexample to the run-level half of the claim.  The confidence is
REPLACED at each `TOOLS` step: in a run whose first tool turn has a verified
hit (confidence 1.0) and whose second tool turn retrieves only an unverified
chunk of score 1/2, the final confidence of the run is 1/2, not 1.0. -/
theorem C3_cex :
    parsedVerifiedHit msgsV ∧
    stepConfidence msgsV = 1 ∧
    agentFinalConfidence [msgsV, msgsU] = q12 ∧
    q12 ≠ 1 := by
  refine ⟨by decide, stepConfidence_eq_one_of_parsed (by decide), ?_, ?_⟩
  · simp only [agentFinalConfidence, List.foldl_cons, List.foldl_nil]
    exact stepConfidence_msgsU
  · rw [q12_eq]
    norm_num

/-- C3, amended: if some PARSED tool result of a `TOOLS` step carries a
verified hit, that step's confidence is 1.0 (such an item serializes to
content containing the verified-hit substring, and it carries a score, so the
score-count guard passes); and the final confidence of a run equals the LAST
tool turn's confidence — in particular it is 1.0 whenever the last tool turn
has a verified hit (not whenever ANY turn has one). -/
theorem C3_amended (msgs : List ToolMsg) (h : parsedVerifiedHit msgs) :
    stepConfidence msgs = 1 ∧
    ∀ steps : List (List ToolMsg), agentFinalConfidence (steps ++ [msgs]) = 1 := by
  refine ⟨stepConfidence_eq_one_of_parsed h, fun steps => ?_⟩
  unfold agentFinalConfidence
  rw [List.foldl_append]
  simpa using stepConfidence_eq_one_of_parsed h

/-- C3, witness: the amended theorem at the concrete verified tool turn. -/
theorem C3_amended_w :
    stepConfidence msgsV = 1 ∧ agentFinalConfidence ([] ++ [msgsV]) = 1 :=
  ⟨(C3_amended msgsV (by decide)).1, (C3_amended msgsV (by decide)).2 []⟩

/-! ## Claim C10 -/

/-- C10, counterexample.  The verified-hit flag IS a substring search on the
raw message content (see the amended theorem), but the claimed trigger fails:
a chunk text containing the literal `"is_verified": true` is JSON-escaped by
`json.dumps`, so the serialized message does not contain the searched
substring and the step's confidence is the mean score 1/2, not 1.0. -/
theorem C10_cex :
    hasSub trickText ("\"is_verified\": true") = true ∧
    (∀ m ∈ msgsX, ∀ c ∈ parsedItems m, c.is_verified = false) ∧
    hasVerifiedSub msgsX = false ∧
    stepConfidence msgsX = q12 ∧
    q12 ≠ 1 := by
  refine ⟨by decide, by decide, by decide, ?_, ?_⟩
  · have hva : hasVerifiedSub msgsX = false := by decide
    have hcnt : scoreCount msgsX = 1 := by decide
    have hsum : scoreSum msgsX = q12 := by
      simp [scoreSum, msgsX, parsedItems]
    rw [stepConfidence, if_pos (by omega : scoreCount msgsX > 0), hva]
    simp [hsum, hcnt]
  · rw [q12_eq]
    norm_num

/-- C10, amended: the verified-hit flag is decided by a substring search for
`'"is_verified": true'` over the RAW contents of all tool messages of the
turn, not by inspecting parsed items — but JSON escaping means a chunk text
cannot trigger it; what can is any tool message whose raw content carries the
literal (e.g. a non-retrieval tool), which forces confidence 1.0 even though
every parsed item is unverified. -/
theorem C10_amended :
    hasVerifiedSub msgsY = true ∧
    (∀ m ∈ msgsY, ∀ c ∈ parsedItems m, c.is_verified = false) ∧
    stepConfidence msgsY = 1 := by
  refine ⟨by decide, by decide, ?_⟩
  have hv : hasVerifiedSub msgsY = true := by decide
  have hcnt : scoreCount msgsY = 1 := by decide
  rw [stepConfidence, if_pos (by omega : scoreCount msgsY > 0), hv]
  simp

/-! ## Helper lemmas: the stream generator -/

lemma streamLoop_split :
    ∀ (evs : List Event) (fc : String) (cits : List String) (conf : ℚ) (sent : Bool),
      ∃ l : List Out, streamLoop fc cits conf sent evs
        = l ++ [Out.done (escalateB (evs.foldl confFold conf))] := by
  intro evs
  induction evs with
  | nil =>
    intro fc cits conf sent
    exact ⟨if sent then [] else [Out.metadata conf cits], rfl⟩
  | cons e rest ih =>
    intro fc cits conf sent
    cases e with
    | tools c q =>
      obtain ⟨l, hl⟩ := ih fc c q true
      refine ⟨(if sent then [] else [Out.metadata q c]) ++ l, ?_⟩
      simp [streamLoop, hl, confFold, List.append_assoc]
    | agent s =>
      by_cases hch : strDropPy s (strLenPy fc) = ""
      · obtain ⟨l, hl⟩ := ih fc cits conf sent
        refine ⟨l, ?_⟩
        simp [streamLoop, hch, hl, confFold]
      · obtain ⟨l, hl⟩ := ih (fc ++ strDropPy s (strLenPy fc)) cits conf sent
        refine ⟨Out.content (strDropPy s (strLenPy fc)) :: l, ?_⟩
        simp [streamLoop, hch, hl, confFold]

lemma streamGen_getLast (evs : List Event) :
    (streamGen evs).getLast? = some (Out.done (escalateB (reportedConfidence evs))) := by
  obtain ⟨l, hl⟩ := streamLoop_split evs ("") [] 0 false
  unfold streamGen reportedConfidence
  rw [hl]
  exact List.getLast?_concat _

lemma streamLoop_meta_count :
    ∀ (evs : List Event) (fc : String) (cits : List String) (conf : ℚ) (sent : Bool),
      ((streamLoop fc cits conf sent evs).filter Out.isMeta).length
        = if sent then 0 else 1 := by
  intro evs
  induction evs with
  | nil =>
    intro fc cits conf sent
    cases sent <;> simp [streamLoop, Out.isMeta]
  | cons e rest ih =>
    intro fc cits conf sent
    cases e with
    | tools c q =>
      cases sent <;>
        simp [streamLoop, List.filter_append, ih fc c q true, Out.isMeta]
    | agent s =>
      by_cases hch : strDropPy s (strLenPy fc) = ""
      · simpa [streamLoop, hch] using ih fc cits conf sent
      · simpa [streamLoop, hch, Out.isMeta]
          using ih (fc ++ strDropPy s (strLenPy fc)) cits conf sent

lemma streamLoop_done_count :
    ∀ (evs : List Event) (fc : String) (cits : List String) (conf : ℚ) (sent : Bool),
      ((streamLoop fc cits conf sent evs).filter Out.isDoneEv).length = 1 := by
  intro evs
  induction evs with
  | nil =>
    intro fc cits conf sent
    cases sent <;> simp [streamLoop, Out.isDoneEv]
  | cons e rest ih =>
    intro fc cits conf sent
    cases e with
    | tools c q =>
      cases sent <;>
        simp [streamLoop, List.filter_append, ih fc c q true, Out.isDoneEv]
    | agent s =>
      by_cases hch : strDropPy s (strLenPy fc) = ""
      · simpa [streamLoop, hch] using ih fc cits conf sent
      · simpa [streamLoop, hch, Out.isDoneEv]
          using ih (fc ++ strDropPy s (strLenPy fc)) cits conf sent

lemma streamLoop_no_content_before_meta :
    ∀ (evs : List Event) (cits : List String) (conf : ℚ),
      (∀ e ∈ evs.takeWhile isAgentEvent, agentContent e = "") →
      noContentBeforeMeta (streamLoop ("") cits conf false evs) = true := by
  intro evs
  induction evs with
  | nil =>
    intro cits conf _
    simp [streamLoop, noContentBeforeMeta, Out.isMeta, List.takeWhile]
  | cons e rest ih =>
    intro cits conf h
    cases e with
    | tools c q =>
      simp [streamLoop, noContentBeforeMeta, Out.isMeta, List.takeWhile]
    | agent s =>
      have hs : s = "" := by
        have : Event.agent s ∈ (Event.agent s :: rest).takeWhile isAgentEvent := by
          simp [List.takeWhile_cons, isAgentEvent]
        simpa [agentContent] using h _ this
      subst hs
      have hch : strDropPy ("") (strLenPy ("")) = "" := by decide
      have h' : ∀ e ∈ rest.takeWhile isAgentEvent, agentContent e = "" := by
        intro e he
        refine h e ?_
        simp [List.takeWhile_cons, isAgentEvent]
        exact Or.inr he
      simpa [streamLoop, hch] using ih cits conf h'

/-! ## Claim C5 -/

/-- C5, evaluation of the bug.  The agent loop's own state does start at
confidence 1.0 and keeps it when no tool runs (`agentFinalConfidence [] = 1`),
as the claim says — but `stream_generator` initialises its reported
confidence to 0.0 and only ever updates it from `tools` events, so a run with
no tool invocation (a greeting) streams `confidence_score = 0` in its
metadata and escalates, instead of reporting the loop's 1.0. -/
theorem C5_bug_eval :
    agentFinalConfidence [] = 1 ∧
    streamGen [Event.agent ("Hi!")]
      = [Out.content ("Hi!"), Out.metadata 0 [], Out.done true] ∧
    reportedConfidence [Event.agent ("Hi!")] = 0 ∧
    (0 : ℚ) ≠ 1 := by
  have hesc : escalateB 0 = true := by
    unfold escalateB
    rw [decide_eq_true_eq]
    norm_num
  have hch : strDropPy ("Hi!") (strLenPy ("")) = "Hi!" := by decide
  have hne : ¬(strDropPy ("Hi!") (strLenPy ("")) = "") := by decide
  refine ⟨rfl, ?_, rfl, by norm_num⟩
  simp [streamGen, streamLoop, hch, hne, hesc]

/-! ## Claim C7 -/

/-- C7, counterexample.  When the assistant emits content before any tool
call (here: a run whose first event is an `agent` message, followed by a
`tools` event), the `content` event is streamed BEFORE the `metadata` event —
the protocol order claimed by the specification is violated. -/
theorem C7_cex :
    streamGen [Event.agent ("Hello!"), Event.tools ["s1"] 1]
      = [Out.content ("Hello!"), Out.metadata 1 ["s1"], Out.done false] ∧
    noContentBeforeMeta
      [Out.content ("Hello!"), Out.metadata 1 ["s1"], Out.done false] = false := by
  have hesc : escalateB 1 = false := by
    unfold escalateB
    rw [decide_eq_false_iff_not]
    norm_num
  have hch : strDropPy ("Hello!") (strLenPy ("")) = "Hello!" := by decide
  have hne : ¬(strDropPy ("Hello!") (strLenPy ("")) = "") := by decide
  refine ⟨?_, by decide⟩
  simp [streamGen, streamLoop, hch, hne, hesc]

/-- C7, amended: every streamed run has exactly one `metadata` event and
exactly one `done` event, the `done` event is last and carries the escalation
flag of the folded confidence; and the metadata event precedes every
`content` event PROVIDED no content-bearing `agent` event occurs before the
first `tools` event (when one does — e.g. a run with no tool call at all —
the content precedes the metadata, which is then emitted only at the end). -/
theorem C7_amended (evs : List Event) :
    ((streamGen evs).filter Out.isMeta).length = 1 ∧
    ((streamGen evs).filter Out.isDoneEv).length = 1 ∧
    (streamGen evs).getLast? = some (Out.done (escalateB (reportedConfidence evs))) ∧
    ((∀ e ∈ evs.takeWhile isAgentEvent, agentContent e = "") →
      noContentBeforeMeta (streamGen evs) = true) := by
  refine ⟨?_, ?_, streamGen_getLast evs, ?_⟩
  · simpa using streamLoop_meta_count evs ("") [] 0 false
  · exact streamLoop_done_count evs ("") [] 0 false
  · intro h
    exact streamLoop_no_content_before_meta evs [] 0 h

/-- C7, witness: the amended theorem at a run whose first event is a tool
turn, with the hypothesis discharged concretely. -/
theorem C7_amended_w :
    noContentBeforeMeta (streamGen [Event.tools ["s1"] 1, Event.agent ("Hey")]) = true :=
  (C7_amended [Event.tools ["s1"] 1, Event.agent ("Hey")]).2.2.2 (by decide)

/-! ## Claim C8 -/

/-- C8: the terminal `done` event of every run carries
`escalated = (confidence < 0.7)`: escalation happens iff the final confidence
is below 0.7 — confidence 0.69 escalates, 0.70 does not. -/
theorem C8_escalation :
    (∀ evs : List Event, (streamGen evs).getLast?
        = some (Out.done (escalateB (reportedConfidence evs)))) ∧
    (∀ q : ℚ, escalateB q = true ↔ q < 7/10) ∧
    streamGen [Event.tools [] (69/100)]
      = [Out.metadata (69/100) [], Out.done true] ∧
    streamGen [Event.tools [] (7/10)]
      = [Out.metadata (7/10) [], Out.done false] := by
  have hiff : ∀ q : ℚ, escalateB q = true ↔ q < 7/10 := by
    intro q
    unfold escalateB
    exact decide_eq_true_iff
  have h69 : escalateB (69/100) = true := (hiff _).2 (by norm_num)
  have h70 : escalateB (7/10) = false := by
    unfold escalateB
    rw [decide_eq_false_iff_not]
    norm_num
  refine ⟨streamGen_getLast, hiff, ?_, ?_⟩
  · simp [streamGen, streamLoop, h69]
  · simp [streamGen, streamLoop, h70]

/-- C8, witness: the escalation property at a concrete run. -/
theorem C8_escalation_w :
    (streamGen [Event.tools [] (69/100)]).getLast?
      = some (Out.done (escalateB (reportedConfidence [Event.tools [] (69/100)]))) ∧
    (escalateB (69/100) = true ↔ (69:ℚ)/100 < 7/10) :=
  ⟨C8_escalation.1 [Event.tools [] (69/100)], C8_escalation.2.1 (69/100)⟩

/-! ## Claim C9 -/

/-- C9: with fewer than 3 seeds and the node budget not exhausted, the 2-hop
expansion refetches the whole edge table and its hits are appended to the
1-hop edge list without deduplication: in `storeA` (a single stored edge
`e1` between seed `a` and promoted neighbour `b`) the returned snapshot
contains the edge `e1` twice. -/
theorem C9_duplicate_edges :
    storeA.edges = [edgeE] ∧
    (selectSeeds storeA ("alpha")).length = 1 ∧
    (getGraphSnapshot storeA ("alpha") 12 24).nodes.length = 2 ∧
    (getGraphSnapshot storeA ("alpha") 12 24).edges.map SnapEdge.id = ["e1", "e1"] := by
  refine ⟨by decide, by decide, by decide, by decide⟩

end TwinBrain
